import Mathlib

/-
Verification of the tabu-search core of the vrp solver.

Conventions of the shallow embedding:
- Rust `u64`/`usize` are modelled as `Nat`, `i64` as `Int`.  The inputs the
  specification admits are far below the overflow range, and no claim below
  concerns wrap-around, so arithmetic is exact.
- Rust `f64` values (distances, fitness, penalties) are modelled as exact
  rationals `ℚ`.  Every claim below is either structural (counts, ordering,
  permutations) or an exact zero test of a product of non-negative integers,
  so the rounding of `f64` is irrelevant to the statements.
- `Vec` is a `List`; `Vec::pop` removes the last element; `VecDeque`
  `push_front`/`pop_back` are cons / drop-last.
- `BinaryHeap` pops a maximal element under `Ord`.  With the reversed
  comparator `Location.cmp` below, the maximal element is one of minimal
  demand, so successive pops yield elements in ascending order of demand;
  the order among equal demands is unspecified in Rust, and the theorems
  below do not depend on it.  The heap is modelled as the list of its
  elements, sorted by ascending demand when it starts being drained.
- Partial operations (indexing, `expect`, `unwrap`) that a claim is about
  return `Option`; other indexing that every claim keeps in bounds uses a
  default value.
-/

set_option linter.unusedVariables false

namespace VRP

/-- Node (`Location`, src/domain/types.rs lines 15-20).  Equality is the
derived structural equality on all three fields. -/
structure Location where
  index : Nat
  demand : Nat
  is_warehouse : Bool
deriving DecidableEq

instance : Inhabited Location := ⟨⟨0, 0, false⟩⟩

/-- The `Ord` instance of `Location` (src/domain/types.rs lines 23-27):
`fn cmp(&self, other) { other.demand.cmp(&self.demand) }` — the comparison
of the demands is reversed. -/
def Location.cmp (a b : Location) : Ordering := compare b.demand a.demand

/-- Solution (`Route`, src/domain/types.rs lines 10-13): an ordered node
sequence with a cached fitness. -/
structure Route where
  route : List Location
  fitness : ℚ
deriving DecidableEq

/-- Problem instance (src/domain/types.rs lines 44-51). -/
structure ProblemInstance where
  locations_string : List String
  distance_matrix : List (List ℚ)
  vehicle_capacities : List Nat
  location_demands : List Nat
  num_of_trucks : Nat
  penalty_value : Nat

/-- Per-truck view (`Truck`, src/domain/types.rs lines 35-41). -/
structure Truck where
  load : Nat
  capacity : Nat
  excess : Int
  ending_warehouse : Option Nat
  route : List Location
deriving DecidableEq

/-- Rust `Vec::swap(i, j)` on a route (used by `swap_indices`, `find_neighbours`
and `steer_towards_best`); both claims using it keep `i`, `j` in bounds. -/
def swapL (l : List Location) (i j : Nat) : List Location :=
  (l.set i (l.getD j default)).set j (l.getD i default)

/-- Reversal of the inclusive slice `route[a..=b]`
(`next_solution.route[a..=b].reverse()` in `final_mutation`,
src/solver/tabu_search/search.rs). -/
def reverseSegment (l : List Location) (a b : Nat) : List Location :=
  l.take a ++ ((l.drop a).take (b + 1 - a)).reverse ++ l.drop (b + 1)

/-- Function `final_mutation` (src/solver/tabu_search/search.rs lines 326-343 and
src/solver/tabu_search/diversification.rs): reverse a random inclusive
segment `[a..=b]`, then if `n ≥ 3` pick `x<y<z` and do
`swap(x,y); swap(y,z)`.  The positions drawn from the seeded RNG are
passed as arguments. -/
def final_mutation (solution : Route) (a b x y z : Nat) : Route :=
  if solution.route.length < 2 then solution
  else
    let r1 := reverseSegment solution.route a b
    if 3 ≤ solution.route.length then
      { solution with route := swapL (swapL r1 x y) y z }
    else
      { solution with route := r1 }

/-- Tail of one iteration of `run` (src/solver/tabu_search/search.rs):
lines 213-218 are the segment-reverse + triple-swap mutation gate, which
calls `final_mutation(&mut current_solution, &mut rng)` and increments
`c4`; the steps between line 218 and line 261 read and write only
`next_solution`; line 261 is `current_solution = next_solution`.  The
function returns the pair (value of `current_solution` carried into the
next iteration, new `c4`).  `mutation_gate` is the probabilistic gate
`U(0,1)·U(0.4,0.6) ≤ temp·U(0.8,1.0)` and `a b x y z` are the RNG draws
inside `final_mutation`. -/
def searchIterTail (current_solution next_solution : Route) (mutation_gate : Bool)
    (a b x y z : Nat) (c4 : Nat) : Route × Nat :=
  let afterGate :=
    if mutation_gate then (final_mutation current_solution a b x y z, c4 + 1)
    else (current_solution, c4)
  (next_solution, afterGate.2)

/-- Matrix lookup `dm[from_loc][to_loc]` (`dist_between`,
src/evaluation/fitness.rs lines 31-33); an out-of-bounds index (a panic in
Rust) is modelled by the default 0 — no claim below depends on
out-of-bounds entries. -/
def dist_between (from_loc to_loc : Nat) (dm : List (List ℚ)) : ℚ :=
  (dm.getD from_loc []).getD to_loc 0

/-- The accumulation loop of `find_distance`: the sum of
`dm[r[i]][r[i+1]]` over consecutive positions. -/
def pathSum : List Location → List (List ℚ) → ℚ
  | a :: b :: rest, dm => dist_between a.index b.index dm + pathSum (b :: rest) dm
  | _, _ => 0

/-- Function `find_distance` (src/evaluation/fitness.rs lines 14-29). -/
def find_distance (solution : Route) (dm : List (List ℚ)) : ℚ :=
  if solution.route.isEmpty then 0
  else
    let warehouse_to_first_loc := dist_between 0 ((solution.route.headD default).index) dm
    let last_loc_to_warehouse := dist_between ((solution.route.getLastD default).index) 0 dm
    warehouse_to_first_loc + pathSum solution.route dm + last_loc_to_warehouse

/-- The loop of `find_sorted_capacities` (src/evaluation/penalty.rs lines
26-36): `curr_sum` accumulates demand over consecutive nodes with
`index ≥ K−1`; a depot marker closes a segment, zero segments are skipped
(`else if curr_sum == 0 continue`), and a positive trailing segment is
pushed after the loop. -/
def fscLoop (num_of_trucks : Nat) : List Location → Nat → List Nat
  | [], curr_sum => if 0 < curr_sum then [curr_sum] else []
  | loc :: rest, curr_sum =>
    if num_of_trucks - 1 ≤ loc.index then fscLoop num_of_trucks rest (curr_sum + loc.demand)
    else if curr_sum = 0 then fscLoop num_of_trucks rest curr_sum
    else curr_sum :: fscLoop num_of_trucks rest 0

/-- Function `find_sorted_capacities` (src/evaluation/penalty.rs lines 21-43): the
positive segment loads, sorted descending.  `sort_unstable_by(|a,b| b.cmp(a))`
sorts naturals descending; on a linear order the sorted list is unique, so
insertion sort computes the same list. -/
def find_sorted_capacities (solution : Route) (num_of_trucks : Nat) : List Nat :=
  List.insertionSort (fun a b => b ≤ a) (fscLoop num_of_trucks solution.route 0)

/-- The overweight loop of `penalty` (src/evaluation/penalty.rs lines 11-16):
`for ind in 0..min(#loads, #caps) { total += max(0, loads[ind] − caps[ind]) }`,
written as a sum over the zip (which has exactly that length). -/
def totalOverweight (loads caps : List Nat) : Int :=
  ((loads.zip caps).map (fun lc => max 0 ((lc.1 : Int) - (lc.2 : Int)))).sum

/-- Function `penalty` (src/evaluation/penalty.rs lines 3-19). -/
def penalty (solution : Route) (penalty_value : Nat) (num_of_trucks : Nat)
    (vehicle_cap : List Nat) : ℚ :=
  ((totalOverweight (find_sorted_capacities solution num_of_trucks) vehicle_cap : Int) : ℚ)
    * (penalty_value : ℚ)

/-- Function `find_fitness` (src/evaluation/fitness.rs lines 3-12). -/
def find_fitness (solution : Route) (penalty_value : Nat) (num_of_trucks : Nat)
    (vehicle_cap : List Nat) (dm : List (List ℚ)) : ℚ :=
  find_distance solution dm + penalty solution penalty_value num_of_trucks vehicle_cap

/-- Function `swaps_overlap` (src/utils.rs lines 32-34). -/
def swaps_overlap (a b : Nat × Nat) : Bool :=
  a.1 == b.1 || a.1 == b.2 || a.2 == b.1 || a.2 == b.2

/-- Pair normalisation `if i < j { (i, j) } else { (j, i) }`, written inline
twice in src/solver/tabu_search/tabu.rs. -/
def normalisePair (p : Nat × Nat) : Nat × Nat := if p.1 < p.2 then p else (p.2, p.1)

/-- Function `choose_best_candidate` (src/solver/tabu_search/tabu.rs lines 6-48). -/
def choose_best_candidate (swap_candidates_ind : List (ℚ × (Nat × Nat)))
    (tabu_list : List (Nat × Nat)) (best_so_far : Route) (aspiration_threshold : ℚ)
    (parent_swap : Nat × Nat) : ℚ × (Nat × Nat) :=
  let chosen_solution := swap_candidates_ind.headD (0, (0, 0))
  let cand_pair := normalisePair chosen_solution.2
  if tabu_list.contains cand_pair then
    if (best_so_far.fitness - aspiration_threshold ≤ chosen_solution.1
          ∧ chosen_solution.1 ≤ best_so_far.fitness + aspiration_threshold)
        ∧ swaps_overlap chosen_solution.2 parent_swap = false then
      chosen_solution
    else
      (swap_candidates_ind.find? (fun sol =>
          !tabu_list.contains (normalisePair sol.2) && !swaps_overlap sol.2 parent_swap)).getD
        chosen_solution
  else chosen_solution

/-- The trimming loop `while tabu_list.len() > len_tabu_list { pop_back() }`
of `insert_and_adjust_tabu_list` pops from the back of the deque; on the
reversed list it pops from the front, which is a structural recursion. -/
def trimFront : List (Nat × Nat) → Nat → List (Nat × Nat)
  | [], _ => []
  | p :: rest, len_tabu_list =>
    if len_tabu_list < (p :: rest).length then trimFront rest len_tabu_list
    else p :: rest

/-- Function `insert_and_adjust_tabu_list` (src/solver/tabu_search/tabu.rs lines
50-66): normalise the pair, `push_front`, trim the back down to
`len_tabu_list`. -/
def insert_and_adjust_tabu_list (tabu_list : List (Nat × Nat)) (swap_move : Nat × Nat)
    (len_tabu_list : Nat) : List (Nat × Nat) :=
  let pair := if swap_move.1 < swap_move.2 then swap_move else (swap_move.2, swap_move.1)
  (trimFront (pair :: tabu_list).reverse len_tabu_list).reverse

/-- Sum of the demands of a list of nodes. -/
def sumD (l : List Location) : Nat := (l.map Location.demand).sum

/-- All locations held by a list of trucks, in order. -/
def locsOf (ts : List Truck) : List Location := (ts.map Truck.route).flatten

/-- The fresh accumulator `temp_truck` of the partition loop. -/
def emptyTruck : Truck := ⟨0, 0, 0, none, []⟩

/-- The loop of `partition_trucks_sorted_by_load` (src/domain/solution.rs
lines 18-32): a node with `index ≥ K−1` accumulates demand and is pushed
onto the current truck's route; a depot marker (`index < K−1`) records its
index as `ending_warehouse` and closes the truck.  Returns the closed
trucks in order together with the still-open accumulator. -/
def partitionLoop (num_of_trucks : Nat) (temp_truck : Truck) :
    List Location → List Truck × Truck
  | [] => ([], temp_truck)
  | loc :: rest =>
    if num_of_trucks - 1 ≤ loc.index then
      partitionLoop num_of_trucks
        { temp_truck with
            load := temp_truck.load + loc.demand,
            route := temp_truck.route ++ [loc] } rest
    else
      let next := partitionLoop num_of_trucks emptyTruck rest
      ({ temp_truck with ending_warehouse := some loc.index } :: next.1, next.2)

/-- Function `partition_trucks_sorted_by_load` (src/domain/solution.rs lines 6-40):
run the loop, close the final truck with `ending_warehouse` = route length,
then sort by load descending.  `sort_by_key(Reverse(load))` is a stable
sort, so stable insertion sort with the same comparison computes the same
list. -/
def partition_trucks_sorted_by_load (solution : Route) (num_of_trucks : Nat) : List Truck :=
  let lp := partitionLoop num_of_trucks emptyTruck solution.route
  let trucks := lp.1 ++ [{ lp.2 with ending_warehouse := some solution.route.length }]
  List.insertionSort (fun a b => b.load ≤ a.load) trucks

/-- The capacity-assignment loop of `trucks_by_excess`
(src/domain/solution.rs lines 45-50): the i-th capacity goes to the i-th
truck (in load-descending order), which gets `excess = load − capacity`;
trucks beyond the capacity list keep capacity 0 and excess 0. -/
def assignCaps : List Truck → List Nat → List Truck
  | [], _ => []
  | ts, [] => ts
  | t :: ts, vc :: vcs =>
    { t with capacity := vc, excess := (t.load : Int) - (vc : Int) } :: assignCaps ts vcs

/-- Function `trucks_by_excess` (src/domain/solution.rs lines 43-54): assign
capacities, then re-sort by excess descending (again a stable sort). -/
def trucks_by_excess (solution : Route) (pi : ProblemInstance) : List Truck :=
  List.insertionSort (fun a b => b.excess ≤ a.excess)
    (assignCaps (partition_trucks_sorted_by_load solution pi.num_of_trucks)
      pi.vehicle_capacities)

/-- The inner destroy loop of `alns_destroy_and_recreate`
(src/solver/tabu_search/repair.rs lines 18-27): while `excess > 0`, pop the
last location of the truck's route (`expect` on an empty route panics:
modelled as `none`), subtract its demand from load and excess, and push it
onto the heap.  The route is passed reversed so that `Vec::pop` is
structural head recursion. -/
def destroyPopLoop : List Location → Nat → Int → List Location →
    Option (List Location × Nat × Int × List Location)
  | [], load, excess, heap =>
    if 0 < excess then none else some ([], load, excess, heap)
  | d :: rest, load, excess, heap =>
    if 0 < excess then
      destroyPopLoop rest (load - d.demand) (excess - (d.demand : Int)) (d :: heap)
    else some (d :: rest, load, excess, heap)

/-- The destroy step for one truck: run the pop loop on the reversed route
and reverse the remainder back. -/
def destroyTruck (truck : Truck) (heap : List Location) : Option (Truck × List Location) :=
  match destroyPopLoop truck.route.reverse truck.load truck.excess heap with
  | none => none
  | some out =>
    some ({ truck with route := out.1.reverse, load := out.2.1, excess := out.2.2.1 }, out.2.2.2)

/-- The destroy loop over trucks (src/solver/tabu_search/repair.rs lines
13-27): trucks are visited in excess-descending order, and the loop breaks
at the first truck with `excess ≤ 0`, leaving it and all later trucks
untouched. -/
def destroyAll : List Truck → List Location → Option (List Truck × List Location)
  | [], heap => some ([], heap)
  | t :: ts, heap =>
    if t.excess ≤ 0 then some (t :: ts, heap)
    else
      match destroyTruck t heap with
      | none => none
      | some out =>
        match destroyAll ts out.2 with
        | none => none
        | some out2 => some (out.1 :: out2.1, out2.2)

/-- The inner repair loop (src/solver/tabu_search/repair.rs lines 34-43):
while the truck's excess is negative (the loop does not update it), the
heap is non-empty and `excess + top.demand ≤ 0`, pop the heap's top and
append it to the truck's route.  The heap argument lists the heap's
elements in pop order. -/
def repairTruckRoute (excess : Int) : List Location → List Location →
    List Location × List Location
  | route, [] => (route, [])
  | route, top :: rest =>
    if excess < 0 ∧ excess + (top.demand : Int) ≤ 0 then
      repairTruckRoute excess (route ++ [top]) rest
    else (route, top :: rest)

/-- The repair loop over trucks (src/solver/tabu_search/repair.rs lines
30-43) visits the trucks in reverse order (`iter_mut().rev()`) and breaks
at the first truck with an empty heap or positive excess; it is written on
the reversed truck list. -/
def repairForward : List Truck → List Location → List Truck × List Location
  | [], heap => ([], heap)
  | t :: ts, heap =>
    if heap = [] ∨ 0 < t.excess then (t :: ts, heap)
    else
      let tr := repairTruckRoute t.excess t.route heap
      let next := repairForward ts tr.2
      ({ t with route := tr.1 } :: next.1, next.2)

/-- The repair phase on the original truck order: reverse, run the loop,
reverse back. -/
def repairAll (trucks : List Truck) (heap : List Location) : List Truck × List Location :=
  let r := repairForward trucks.reverse heap
  (r.1.reverse, r.2)

/-- Helper of `minExcessIdx`: index of the first truck of minimal excess,
carrying the best index and value so far. -/
def minExcessIdxAux : List Truck → Nat → Nat → Int → Nat
  | [], _, bestIdx, _ => bestIdx
  | t :: ts, i, bestIdx, bestVal =>
    if t.excess < bestVal then minExcessIdxAux ts (i + 1) i t.excess
    else minExcessIdxAux ts (i + 1) bestIdx bestVal

/-- Index of the first truck of minimal excess
(`Iterator::min_by_key` returns the first minimal element). -/
def minExcessIdx : List Truck → Nat
  | [] => 0
  | t :: ts => minExcessIdxAux ts 1 0 t.excess

/-- The fallback of `alns_destroy_and_recreate`
(src/solver/tabu_search/repair.rs lines 46-53): if the heap is still
non-empty, append all remaining locations (`BinaryHeap::drain` yields an
unspecified order) to the truck with minimal excess. -/
def fallbackInsert (trucks : List Truck) (heap : List Location) : List Truck :=
  match trucks with
  | [] => trucks
  | _ :: _ =>
    let i := minExcessIdx trucks
    let t := trucks.getD i emptyTruck
    trucks.set i { t with route := t.route ++ heap }

/-- The route rebuilt by `recreate_route_from_trucks`
(src/solver/tabu_search/repair.rs lines 63-75): truck routes concatenated,
with a fresh depot marker (index = running counter starting at 0,
demand 0, warehouse flag set) between consecutive trucks. -/
def recreateLocs : List Truck → Nat → List Location
  | [], _ => []
  | [t], _ => t.route
  | t :: t2 :: ts, partition_counter =>
    t.route ++ ⟨partition_counter, 0, true⟩ :: recreateLocs (t2 :: ts) (partition_counter + 1)

/-- Function `recreate_route_from_trucks` (src/solver/tabu_search/repair.rs lines
58-91): rebuild the flat route and recompute its fitness. -/
def recreate_route_from_trucks (trucks : List Truck) (pi : ProblemInstance) : Route :=
  let recreated_route := recreateLocs trucks 0
  { route := recreated_route,
    fitness := find_fitness ⟨recreated_route, 0⟩ pi.penalty_value pi.num_of_trucks
      pi.vehicle_capacities pi.distance_matrix }

/-- Function `alns_destroy_and_recreate` (src/solver/tabu_search/repair.rs lines
8-55).  Returns `none` exactly when the destroy loop would pop from an
empty route (the `expect` panic; C10 shows this never happens).  The heap
is sorted by ascending demand before the repair phase drains it, which is
the pop order of the `BinaryHeap` under the reversed `Location.cmp`. -/
def alns_destroy_and_recreate (solution : Route) (pi : ProblemInstance) : Option Route :=
  match destroyAll (trucks_by_excess solution pi) [] with
  | none => none
  | some out =>
    let heapSorted := List.insertionSort (fun a b : Location => a.demand ≤ b.demand) out.2
    let r2 := repairAll out.1 heapSorted
    let trucks3 := if r2.2 = [] then r2.1 else fallbackInsert r2.1 r2.2
    some (recreate_route_from_trucks trucks3 pi)

/-- The route's node indices are a permutation of `[0, N)`. -/
def isPermOfRange (r : List Location) (n : Nat) : Prop :=
  (r.map Location.index).Perm (List.range n)

/-- Number of depot markers in a route: nodes with `index < K−1`. -/
def depotMarkerCount (r : List Location) (num_of_trucks : Nat) : Nat :=
  (r.filter (fun loc => loc.index < num_of_trucks - 1)).length

/-- The pair enumeration of `find_neighbours`
(src/solver/tabu_search/neighborhood.rs lines 13-15):
`(0..n).flat_map(|i| ((i+1)..n).map(move |j| (i, j)))`. -/
def pairsList (n : Nat) : List (Nat × Nat) :=
  (List.range n).flatMap (fun i => (List.range' (i + 1) (n - (i + 1))).map (fun j => (i, j)))

/-- Function `find_neighbours` (src/solver/tabu_search/neighborhood.rs lines 7-42):
for every pair i < j the fitness of the route with positions i and j
swapped, sorted ascending by fitness (`total_cmp`).  rayon's
`par_iter().map().collect()` preserves the pair order, and `par_sort_by`
is a stable sort; a stable sort is uniquely determined by the comparator
and the input order, so insertion sort computes the same list. -/
def find_neighbours (current_solution : Route) (problem_instance : ProblemInstance) :
    List (ℚ × (Nat × Nat)) :=
  let n := current_solution.route.length
  let pairs := pairsList n
  let swap_candidates_ind := pairs.map (fun ij =>
    let new_solution : Route := ⟨swapL current_solution.route ij.1 ij.2, 0⟩
    (find_fitness new_solution problem_instance.penalty_value problem_instance.num_of_trucks
        problem_instance.vehicle_capacities problem_instance.distance_matrix, ij))
  List.insertionSort (fun a b => a.1 ≤ b.1) swap_candidates_ind

/-- Natural (lexicographic) order on index pairs, the tie-break order of the
neighbourhood list. -/
def pairLT (p q : Nat × Nat) : Prop := p.1 < q.1 ∨ (p.1 = q.1 ∧ p.2 < q.2)

/-- One iteration of the loop of `steer_towards_best` (src/utils.rs lines
20-29): `target_value = best_so_far.route[idx]`; `current_idx` is the first
position of `target_value` in the current route (`position(..).unwrap()`,
whose success is guaranteed by the hypotheses of the theorems below);
then `swap(idx, current_idx)`. -/
def steerStep (best_route : List Location) (cur : List Location) (idx : Nat) : List Location :=
  let target_value := best_route.getD idx default
  let current_idx : Nat := cur.indexOf target_value
  swapL cur idx current_idx

/-- Function `steer_towards_best` (src/utils.rs lines 12-30).  `choose_multiple`
draws unique positions below the route length from the seeded RNG; the drawn
positions are passed as the argument `chosen_indices`. -/
def steer_towards_best (current_solution best_so_far : Route)
    (chosen_indices : List Nat) : Route :=
  { current_solution with
      route := chosen_indices.foldl (steerStep best_so_far.route) current_solution.route }

/-- Number of positions at which two routes carry the same node. -/
def matchCount (cur best : List Location) : Nat :=
  (List.range best.length).countP (fun p => cur.getD p default == best.getD p default)

/-- Concrete route used by the neighbourhood witness. -/
def solW : Route := ⟨[⟨1, 0, false⟩, ⟨2, 0, false⟩], 0⟩

/-- Concrete problem instance used by the neighbourhood witness. -/
def piW : ProblemInstance :=
  ⟨[], [[0, 0, 0], [0, 0, 0], [0, 0, 0]], [5], [0, 0, 0], 2, 1⟩

/-- Concrete nodes for counterexample evaluations. -/
def locA : Location := ⟨1, 1, false⟩

/-- Second concrete node for counterexample evaluations. -/
def locB : Location := ⟨2, 2, false⟩

/-- Concrete route used by the repair witness: a permutation of [0, 3)
with one depot marker for two trucks. -/
def solR : Route := ⟨[⟨1, 3, false⟩, ⟨0, 0, true⟩, ⟨2, 4, false⟩], 0⟩

/-- Concrete problem instance used by the repair witness. -/
def piR : ProblemInstance :=
  ⟨[], [[0, 0, 0], [0, 0, 0], [0, 0, 0]], [5, 5], [0, 3, 4], 2, 1⟩

/-- Specification predicate (spec §4.1 and §8 item 5): after sorting the
segment loads descending, every rank below min(#segments, #capacities)
satisfies load ≤ capacity. -/
def specLoadsWithinCaps (solution : Route) (num_of_trucks : Nat)
    (vehicle_cap : List Nat) : Prop :=
  ∀ r < min (find_sorted_capacities solution num_of_trucks).length vehicle_cap.length,
    (find_sorted_capacities solution num_of_trucks).getD r 0 ≤ vehicle_cap.getD r 0

theorem set_getD_self : ∀ (l : List Location) (i : Nat) (d : Location),
    i < l.length → l.set i (l.getD i d) = l
  | [], i, d, h => by simp at h
  | x :: t, 0, d, h => by simp
  | x :: t, i + 1, d, h => by
    simp only [List.getD_cons_succ, List.set_cons_succ]
    rw [set_getD_self t i d (by simpa using h)]

theorem swapL_length (l : List Location) (i j : Nat) : (swapL l i j).length = l.length := by
  simp [swapL]

theorem swapL_self (l : List Location) (i : Nat) (h : i < l.length) : swapL l i i = l := by
  unfold swapL
  rw [List.set_set]
  exact set_getD_self l i default h

theorem getD_set_of_ne {l : List Location} {i j : Nat} {a d : Location} (h : i ≠ j) :
    (l.set i a).getD j d = l.getD j d := by
  rw [List.getD_eq_getElem?_getD, List.getD_eq_getElem?_getD, List.getElem?_set]
  simp [h]

theorem getD_set_self {l : List Location} {i : Nat} {a d : Location} (h : i < l.length) :
    (l.set i a).getD i d = a := by
  rw [List.getD_eq_getElem?_getD, List.getElem?_set]
  simp [h]

theorem swapL_getD_of_ne {l : List Location} {i j p : Nat} {d : Location}
    (hpi : p ≠ i) (hpj : p ≠ j) : (swapL l i j).getD p d = l.getD p d := by
  unfold swapL
  rw [getD_set_of_ne (fun h => hpj h.symm), getD_set_of_ne (fun h => hpi h.symm)]

theorem swapL_getD_fst {l : List Location} {i j : Nat} {d : Location}
    (hij : i ≠ j) (hi : i < l.length) (hj : j < l.length) :
    (swapL l i j).getD i d = l.getD j d := by
  unfold swapL
  rw [getD_set_of_ne (fun h => hij h.symm), getD_set_self hi]
  rw [List.getD_eq_getElem l default hj, List.getD_eq_getElem l d hj]

theorem swapL_getD_snd {l : List Location} {i j : Nat} {d : Location}
    (hi : i < l.length) (hj : j < l.length) :
    (swapL l i j).getD j d = l.getD i d := by
  unfold swapL
  rw [getD_set_self (by simpa using hj)]
  rw [List.getD_eq_getElem l default hi, List.getD_eq_getElem l d hi]

theorem perm_getD_cons_set (x : Location) : ∀ (l : List Location) (j : Nat), j < l.length →
    (l.getD j default :: l.set j x).Perm (x :: l)
  | [], j, h => by simp at h
  | y :: t, 0, h => by
    simpa using List.Perm.swap x y t
  | y :: t, j + 1, h => by
    simp only [List.getD_cons_succ, List.set_cons_succ]
    have h1 : (t.getD j default :: y :: t.set j x).Perm (y :: t.getD j default :: t.set j x) :=
      List.Perm.swap y (t.getD j default) (t.set j x)
    have h2 : (y :: t.getD j default :: t.set j x).Perm (y :: x :: t) :=
      List.Perm.cons y (perm_getD_cons_set x t j (by simpa using h))
    have h3 : (y :: x :: t).Perm (x :: y :: t) := List.Perm.swap x y t
    exact h1.trans (h2.trans h3)

theorem swapL_perm : ∀ (l : List Location) (i j : Nat), i < l.length → j < l.length →
    (swapL l i j).Perm l
  | [], i, j, hi, hj => by simp at hi
  | x :: t, 0, 0, hi, hj => by simp [swapL]
  | x :: t, 0, m + 1, hi, hj => by
    simp only [swapL, List.getD_cons_succ, List.getD_cons_zero, List.set_cons_zero,
      List.set_cons_succ]
    exact perm_getD_cons_set x t m (by simpa using hj)
  | x :: t, n + 1, 0, hi, hj => by
    simp only [swapL, List.getD_cons_succ, List.getD_cons_zero, List.set_cons_succ,
      List.set_cons_zero]
    exact perm_getD_cons_set x t n (by simpa using hi)
  | x :: t, n + 1, m + 1, hi, hj => by
    simp only [swapL, List.getD_cons_succ, List.set_cons_succ]
    exact List.Perm.cons x (swapL_perm t n m (by simpa using hi) (by simpa using hj))

theorem steerStep_eq (best cur : List Location) (idx : Nat) :
    steerStep best cur idx = swapL cur idx (cur.indexOf (best.getD idx default)) := rfl

theorem steerStep_spec (best cur : List Location) (idx : Nat)
    (hperm : cur.Perm best) (hnd : best.Nodup) (hidx : idx < cur.length) :
    (steerStep best cur idx).Perm best
    ∧ (steerStep best cur idx).getD idx default = best.getD idx default
    ∧ (∀ p, cur.getD p default = best.getD p default →
        (steerStep best cur idx).getD p default = best.getD p default)
    ∧ matchCount cur best ≤ matchCount (steerStep best cur idx) best := by
  have hlen : cur.length = best.length := hperm.length_eq
  have hidxb : idx < best.length := hlen ▸ hidx
  have htmem : best.getD idx default ∈ best := by
    rw [List.getD_eq_getElem best default hidxb]
    exact List.getElem_mem hidxb
  have htcur : best.getD idx default ∈ cur := hperm.mem_iff.mpr htmem
  have hndc : cur.Nodup := (hperm.nodup_iff).mpr hnd
  have hjlt0 : cur.indexOf (best.getD idx default) < cur.length :=
    List.indexOf_lt_length.mpr htcur
  have hcurj0 : cur.getD (cur.indexOf (best.getD idx default)) default
      = best.getD idx default := by
    rw [List.getD_eq_getElem cur default hjlt0]
    exact List.getElem_indexOf hjlt0
  simp only [steerStep_eq]
  generalize hj : cur.indexOf (best.getD idx default) = j at hjlt0 hcurj0
  by_cases hij : idx = j
  · rw [← hij] at hcurj0 ⊢
    rw [swapL_self cur idx hidx]
    exact ⟨hperm, hcurj0, fun p hp => hp, le_refl _⟩
  · have hmain : ∀ p, cur.getD p default = best.getD p default →
        (swapL cur idx j).getD p default = best.getD p default := by
      intro p hp
      by_cases hpi : p = idx
      · exfalso
        apply hij
        have h1 : cur.getD idx default = best.getD idx default := by rw [← hpi, hp, hpi]
        have hgg : cur[idx] = cur[j] := by
          rw [← List.getD_eq_getElem cur default hidx, ← List.getD_eq_getElem cur default hjlt0,
            h1, hcurj0]
        exact (hndc.getElem_inj_iff.mp hgg)
      · by_cases hpj : p = j
        · exfalso
          have hjb : j < best.length := hlen ▸ hjlt0
          have h1 : best.getD j default = best.getD idx default := by
            rw [← hpj, ← hp, hpj]
            exact hcurj0
          have hgg : best[j] = best[idx] := by
            rw [← List.getD_eq_getElem best default hjb, ← List.getD_eq_getElem best default hidxb,
              h1]
          have hji := hnd.getElem_inj_iff.mp hgg
          exact hij hji.symm
        · rw [swapL_getD_of_ne hpi hpj]
          exact hp
    refine ⟨?_, ?_, hmain, ?_⟩
    · exact (swapL_perm cur idx j hidx hjlt0).trans hperm
    · rw [swapL_getD_fst hij hidx hjlt0, hcurj0]
    · unfold matchCount
      apply List.countP_mono_left
      intro p hpmem hcur
      rw [beq_iff_eq] at hcur ⊢
      exact hmain p hcur

theorem steerFold_spec (best : List Location) (hnd : best.Nodup) :
    ∀ (chosen : List Nat) (cur : List Location), cur.Perm best →
      (∀ i ∈ chosen, i < cur.length) →
      (chosen.foldl (steerStep best) cur).Perm best
      ∧ matchCount cur best ≤ matchCount (chosen.foldl (steerStep best) cur) best
      ∧ (∀ p, cur.getD p default = best.getD p default →
          (chosen.foldl (steerStep best) cur).getD p default = best.getD p default)
      ∧ ∀ i ∈ chosen, (chosen.foldl (steerStep best) cur).getD i default = best.getD i default
  | [], cur, hperm, hb => ⟨hperm, le_refl _, fun p hp => hp, by simp⟩
  | idx :: rest, cur, hperm, hb => by
    have hidx : idx < cur.length := hb idx (List.mem_cons_self idx rest)
    have hstep := steerStep_spec best cur idx hperm hnd hidx
    have hlen : (steerStep best cur idx).length = cur.length :=
      hstep.1.length_eq.trans hperm.length_eq.symm
    have ih := steerFold_spec best hnd rest (steerStep best cur idx) hstep.1
      (fun i hi => by rw [hlen]; exact hb i (List.mem_cons_of_mem _ hi))
    simp only [List.foldl_cons]
    refine ⟨ih.1, ?_, ?_, ?_⟩
    · exact le_trans hstep.2.2.2 ih.2.1
    · intro p hp
      exact ih.2.2.1 p (hstep.2.2.1 p hp)
    · intro i hi
      rcases List.mem_cons.mp hi with rfl | hi2
      · exact ih.2.2.1 i hstep.2.1
      · exact ih.2.2.2 i hi2

/-- C9: if the current and best routes hold the same distinct nodes (the
best route is duplicate-free and the current route is a permutation of it)
and every drawn position is in range, then `steer_towards_best` does not
decrease the number of positions agreeing with the best route, and every
drawn position agrees with the best route afterwards.  The seeded RNG is
modelled by passing the drawn positions as an argument. -/
theorem steer_towards_best_spec (current_solution best_so_far : Route)
    (chosen_indices : List Nat)
    (hperm : current_solution.route.Perm best_so_far.route)
    (hnd : best_so_far.route.Nodup)
    (hb : ∀ i ∈ chosen_indices, i < current_solution.route.length) :
    matchCount current_solution.route best_so_far.route
      ≤ matchCount (steer_towards_best current_solution best_so_far chosen_indices).route
          best_so_far.route
    ∧ ∀ i ∈ chosen_indices,
        (steer_towards_best current_solution best_so_far chosen_indices).route.getD i default
          = best_so_far.route.getD i default := by
  have h := steerFold_spec best_so_far.route hnd chosen_indices current_solution.route hperm hb
  exact ⟨h.2.1, h.2.2.2⟩

/-- C9 witness: a concrete instantiation of the steering property. -/
theorem steer_towards_best_spec_witness :
    matchCount (Route.mk [⟨2, 2, false⟩, ⟨1, 1, false⟩] 0).route
        (Route.mk [⟨1, 1, false⟩, ⟨2, 2, false⟩] 0).route
      ≤ matchCount (steer_towards_best (Route.mk [⟨2, 2, false⟩, ⟨1, 1, false⟩] 0)
          (Route.mk [⟨1, 1, false⟩, ⟨2, 2, false⟩] 0) [0]).route
          (Route.mk [⟨1, 1, false⟩, ⟨2, 2, false⟩] 0).route
    ∧ ∀ i ∈ [0],
        (steer_towards_best (Route.mk [⟨2, 2, false⟩, ⟨1, 1, false⟩] 0)
          (Route.mk [⟨1, 1, false⟩, ⟨2, 2, false⟩] 0) [0]).route.getD i default
          = (Route.mk [⟨1, 1, false⟩, ⟨2, 2, false⟩] 0).route.getD i default :=
  steer_towards_best_spec (Route.mk [⟨2, 2, false⟩, ⟨1, 1, false⟩] 0)
    (Route.mk [⟨1, 1, false⟩, ⟨2, 2, false⟩] 0) [0] (by decide) (by decide) (by decide)

theorem flatMap_eq_flatten_map (l : List Nat) (f : Nat → List (Nat × Nat)) :
    l.flatMap f = (l.map f).flatten := by
  induction l with
  | nil => rfl
  | cons x t ih =>
    simp only [List.flatMap_cons, List.map_cons, List.flatten_cons]
    rw [ih]

theorem length_pairsList (n : Nat) : (pairsList n).length = n * (n - 1) / 2 := by
  unfold pairsList
  rw [List.length_flatMap]
  have h1 : List.map (List.length ∘ fun i => (List.range' (i + 1) (n - (i + 1))).map
      (fun j => (i, j))) (List.range n) = List.map (fun i => n - 1 - i) (List.range n) := by
    apply List.map_congr_left
    intro i hi
    simp only [Function.comp, List.length_map, List.length_range']
    omega
  rw [h1]
  have h2 : ((List.range n).map (fun i => n - 1 - i)).sum
      = ∑ i ∈ Finset.range n, (n - 1 - i) := rfl
  rw [h2]
  have h3 := Finset.sum_range_reflect (fun j => j) n
  simp only at h3
  rw [h3]
  have h4 := Finset.sum_range_id_mul_two n
  omega

theorem mem_pairsList {n : Nat} {p : Nat × Nat} :
    p ∈ pairsList n ↔ p.1 < p.2 ∧ p.2 < n := by
  unfold pairsList
  rw [List.mem_flatMap]
  constructor
  · rintro ⟨i, hi, hmem⟩
    rw [List.mem_map] at hmem
    rcases hmem with ⟨j, hj, rfl⟩
    rw [List.mem_range'] at hj
    rw [List.mem_range] at hi
    rcases hj with ⟨k, hk, rfl⟩
    refine ⟨?_, ?_⟩ <;> simp <;> omega
  · rintro ⟨h1, h2⟩
    refine ⟨p.1, ?_, ?_⟩
    · rw [List.mem_range]
      omega
    · rw [List.mem_map]
      refine ⟨p.2, ?_, ?_⟩
      · rw [List.mem_range']
        exact ⟨p.2 - (p.1 + 1), by omega, by omega⟩
      · simp

theorem pairwise_pairsList (n : Nat) : (pairsList n).Pairwise pairLT := by
  unfold pairsList
  rw [flatMap_eq_flatten_map, List.pairwise_flatten]
  constructor
  · intro l hl
    rw [List.mem_map] at hl
    rcases hl with ⟨i, hi, rfl⟩
    rw [List.pairwise_map]
    apply List.Pairwise.imp ?_ (List.pairwise_lt_range' (i + 1) (n - (i + 1)))
    intro a b hab
    exact Or.inr ⟨rfl, hab⟩
  · rw [List.pairwise_map]
    apply List.Pairwise.imp ?_ (List.pairwise_lt_range n)
    intro i₁ i₂ h12 x hx y hy
    rw [List.mem_map] at hx hy
    rcases hx with ⟨j₁, _, rfl⟩
    rcases hy with ⟨j₂, _, rfl⟩
    exact Or.inl h12

theorem orderedInsert_lex (c : ℚ × (Nat × Nat)) :
    ∀ (l : List (ℚ × (Nat × Nat))),
      l.Pairwise (fun a b => a.1 < b.1 ∨ (a.1 = b.1 ∧ pairLT a.2 b.2)) →
      (∀ x ∈ l, pairLT c.2 x.2) →
      (List.orderedInsert (fun a b => a.1 ≤ b.1) c l).Pairwise
        (fun a b => a.1 < b.1 ∨ (a.1 = b.1 ∧ pairLT a.2 b.2))
  | [], _, _ => by simp
  | b :: bs, hpw, hcr => by
    rw [List.orderedInsert]
    split
    · next hle =>
      have hle' : c.1 ≤ b.1 := hle
      refine List.Pairwise.cons ?_ hpw
      intro x hx
      rcases List.mem_cons.mp hx with rfl | hx2
      · rcases lt_or_eq_of_le hle' with h | h
        · exact Or.inl h
        · exact Or.inr ⟨h, hcr x (List.mem_cons_self _ _)⟩
      · have hbx := (List.pairwise_cons.mp hpw).1 x hx2
        rcases hbx with h | h
        · rcases lt_or_eq_of_le hle' with h2 | h2
          · exact Or.inl (lt_trans h2 h)
          · exact Or.inl (h2 ▸ h)
        · rcases lt_or_eq_of_le hle' with h2 | h2
          · exact Or.inl (lt_of_lt_of_le h2 (le_of_eq h.1))
          · exact Or.inr ⟨h2.trans h.1, hcr x (List.mem_cons_of_mem _ hx2)⟩
    · next hnle =>
      have hb : b.1 < c.1 := lt_of_not_le hnle
      have ih := orderedInsert_lex c bs (List.pairwise_cons.mp hpw).2
        (fun x hx => hcr x (List.mem_cons_of_mem _ hx))
      refine List.Pairwise.cons ?_ ih
      intro y hy
      rw [List.mem_orderedInsert] at hy
      rcases hy with rfl | hy2
      · exact Or.inl hb
      · exact (List.pairwise_cons.mp hpw).1 y hy2

theorem insertionSort_lex : ∀ (l : List (ℚ × (Nat × Nat))),
    l.Pairwise (fun a b => pairLT a.2 b.2) →
    (List.insertionSort (fun a b => a.1 ≤ b.1) l).Pairwise
      (fun a b => a.1 < b.1 ∨ (a.1 = b.1 ∧ pairLT a.2 b.2))
  | [], _ => by simp
  | c :: rest, hpw => by
    rw [List.insertionSort]
    apply orderedInsert_lex
    · exact insertionSort_lex rest (List.pairwise_cons.mp hpw).2
    · intro x hx
      have hmem : x ∈ rest := ((List.perm_insertionSort _ rest).mem_iff).mp hx
      exact (List.pairwise_cons.mp hpw).1 x hmem

/-- C4: `find_neighbours` returns one entry per pair 0 ≤ i < j < N (so
exactly N(N−1)/2 entries); the entry for (i, j) carries the fitness of the
input route with positions i and j swapped; and the list is sorted by
fitness ascending with ties broken by the natural pair order (the sort is
stable over the lexicographically ordered pair enumeration). -/
theorem find_neighbours_spec (current_solution : Route) (problem_instance : ProblemInstance) :
    (find_neighbours current_solution problem_instance).length
        = current_solution.route.length * (current_solution.route.length - 1) / 2
    ∧ (∀ e ∈ find_neighbours current_solution problem_instance,
        e.2.1 < e.2.2 ∧ e.2.2 < current_solution.route.length
        ∧ e.1 = find_fitness ⟨swapL current_solution.route e.2.1 e.2.2, 0⟩
            problem_instance.penalty_value problem_instance.num_of_trucks
            problem_instance.vehicle_capacities problem_instance.distance_matrix)
    ∧ (∀ i j : Nat, i < j → j < current_solution.route.length →
        (find_fitness ⟨swapL current_solution.route i j, 0⟩
            problem_instance.penalty_value problem_instance.num_of_trucks
            problem_instance.vehicle_capacities problem_instance.distance_matrix, (i, j))
          ∈ find_neighbours current_solution problem_instance)
    ∧ (find_neighbours current_solution problem_instance).Pairwise
        (fun a b => a.1 < b.1 ∨ (a.1 = b.1 ∧ pairLT a.2 b.2)) := by
  simp only [find_neighbours]
  refine ⟨?_, ?_, ?_, ?_⟩
  · rw [List.length_insertionSort, List.length_map, length_pairsList]
  · intro e he
    have he2 : e ∈ (pairsList current_solution.route.length).map (fun ij =>
        (find_fitness ⟨swapL current_solution.route ij.1 ij.2, 0⟩
            problem_instance.penalty_value problem_instance.num_of_trucks
            problem_instance.vehicle_capacities problem_instance.distance_matrix, ij)) :=
      ((List.perm_insertionSort _ _).mem_iff).mp he
    rw [List.mem_map] at he2
    rcases he2 with ⟨p, hp, rfl⟩
    obtain ⟨h1, h2⟩ := mem_pairsList.mp hp
    exact ⟨h1, h2, rfl⟩
  · intro i j hij hj
    apply ((List.perm_insertionSort _ _).mem_iff).mpr
    rw [List.mem_map]
    exact ⟨(i, j), mem_pairsList.mpr ⟨hij, hj⟩, rfl⟩
  · apply insertionSort_lex
    rw [List.pairwise_map]
    exact pairwise_pairsList current_solution.route.length



/-- C4 witness: a concrete instantiation of the neighbourhood properties. -/
theorem find_neighbours_spec_witness :
    (find_neighbours solW piW).length = solW.route.length * (solW.route.length - 1) / 2
    ∧ (find_fitness ⟨swapL solW.route 0 1, 0⟩ piW.penalty_value piW.num_of_trucks
        piW.vehicle_capacities piW.distance_matrix, (0, 1)) ∈ find_neighbours solW piW
    ∧ (find_neighbours solW piW).Pairwise
        (fun a b => a.1 < b.1 ∨ (a.1 = b.1 ∧ pairLT a.2 b.2)) :=
  ⟨(find_neighbours_spec solW piW).1,
   (find_neighbours_spec solW piW).2.2.1 0 1 (by decide) (by decide),
   (find_neighbours_spec solW piW).2.2.2⟩



theorem locsOf_nil : locsOf [] = [] := rfl

theorem locsOf_cons (t : Truck) (ts : List Truck) : locsOf (t :: ts) = t.route ++ locsOf ts := by
  simp [locsOf]

theorem locsOf_append (ts₁ ts₂ : List Truck) :
    locsOf (ts₁ ++ ts₂) = locsOf ts₁ ++ locsOf ts₂ := by
  simp [locsOf]

theorem locsOf_perm {ts₁ ts₂ : List Truck} (h : ts₁.Perm ts₂) :
    (locsOf ts₁).Perm (locsOf ts₂) :=
  (h.map Truck.route).flatten

theorem partitionLoop_locs (K : Nat) : ∀ (locs : List Location) (temp : Truck),
    locsOf (partitionLoop K temp locs).1 ++ (partitionLoop K temp locs).2.route
      = temp.route ++ locs.filter (fun loc => decide (K - 1 ≤ loc.index))
  | [], temp => by simp [partitionLoop, locsOf]
  | loc :: rest, temp => by
    simp only [partitionLoop]
    split
    · next h =>
      have ih := partitionLoop_locs K rest
        { temp with load := temp.load + loc.demand, route := temp.route ++ [loc] }
      rw [ih, List.filter_cons, if_pos (decide_eq_true h)]
      simp
    · next h =>
      have ih := partitionLoop_locs K rest emptyTruck
      rw [List.filter_cons, if_neg (by simpa using h)]
      rw [show emptyTruck.route = [] from rfl, List.nil_append] at ih
      simp [locsOf_cons, List.append_assoc, ih]

theorem partitionLoop_length (K : Nat) : ∀ (locs : List Location) (temp : Truck),
    (partitionLoop K temp locs).1.length
      = (locs.filter (fun loc => decide (loc.index < K - 1))).length
  | [], temp => by simp [partitionLoop]
  | loc :: rest, temp => by
    simp only [partitionLoop]
    split
    · next h =>
      have ih := partitionLoop_length K rest
        { temp with load := temp.load + loc.demand, route := temp.route ++ [loc] }
      rw [ih, List.filter_cons, if_neg (by simp; omega)]
    · next h =>
      have ih := partitionLoop_length K rest emptyTruck
      rw [List.filter_cons, if_pos (by simp; omega)]
      simp only [List.length_cons]
      rw [ih]

theorem partitionLoop_load (K : Nat) : ∀ (locs : List Location) (temp : Truck),
    temp.load = sumD temp.route → temp.excess = 0 →
    (∀ t ∈ (partitionLoop K temp locs).1, t.load = sumD t.route ∧ t.excess = 0)
    ∧ (partitionLoop K temp locs).2.load = sumD (partitionLoop K temp locs).2.route
    ∧ (partitionLoop K temp locs).2.excess = 0
  | [], temp => by
    intro h1 h2
    exact ⟨by simp [partitionLoop], by simpa [partitionLoop] using h1,
      by simpa [partitionLoop] using h2⟩
  | loc :: rest, temp => by
    intro h1 h2
    simp only [partitionLoop]
    split
    · next h =>
      exact partitionLoop_load K rest
        { temp with load := temp.load + loc.demand, route := temp.route ++ [loc] }
        (by simp [sumD, h1]) h2
    · next h =>
      have ih := partitionLoop_load K rest emptyTruck (by simp [emptyTruck, sumD])
        (by simp [emptyTruck])
      refine ⟨?_, ih.2.1, ih.2.2⟩
      intro t ht
      rcases List.mem_cons.mp ht with rfl | ht2
      · exact ⟨h1, h2⟩
      · exact ih.1 t ht2

theorem partition_trucks_spec (solution : Route) (K : Nat) :
    (locsOf (partition_trucks_sorted_by_load solution K)).Perm
        (solution.route.filter (fun loc => decide (K - 1 ≤ loc.index)))
    ∧ (partition_trucks_sorted_by_load solution K).length
        = (solution.route.filter (fun loc => decide (loc.index < K - 1))).length + 1
    ∧ ∀ t ∈ partition_trucks_sorted_by_load solution K,
        t.load = sumD t.route ∧ t.excess = 0 := by
  unfold partition_trucks_sorted_by_load
  have hperm := List.perm_insertionSort (fun a b : Truck => b.load ≤ a.load)
    ((partitionLoop K emptyTruck solution.route).1
      ++ [{ (partitionLoop K emptyTruck solution.route).2 with
            ending_warehouse := some solution.route.length }])
  refine ⟨?_, ?_, ?_⟩
  · apply (locsOf_perm hperm).trans
    rw [locsOf_append, locsOf_cons, locsOf_nil, List.append_nil]
    have := partitionLoop_locs K solution.route emptyTruck
    simp only [emptyTruck] at this
    rw [List.nil_append] at this
    exact this ▸ List.Perm.refl _
  · rw [List.length_insertionSort, List.length_append, List.length_singleton,
      partitionLoop_length K solution.route emptyTruck]
  · intro t ht
    have ht2 := hperm.mem_iff.mp ht
    have hload := partitionLoop_load K solution.route emptyTruck (by simp [emptyTruck, sumD])
      (by simp [emptyTruck])
    rcases List.mem_append.mp ht2 with h | h
    · exact hload.1 t h
    · rw [List.mem_singleton] at h
      subst h
      exact ⟨hload.2.1, hload.2.2⟩

theorem coe_append {α : Type} (l₁ l₂ : List α) :
    ((l₁ ++ l₂ : List α) : Multiset α) = ↑l₁ + ↑l₂ := rfl

theorem coe_reverse {α : Type} (l : List α) :
    ((l.reverse : List α) : Multiset α) = ↑l :=
  Multiset.coe_eq_coe.mpr (List.reverse_perm l)

theorem sumD_cons (a : Location) (l : List Location) :
    sumD (a :: l) = a.demand + sumD l := by
  simp [sumD]

theorem sumD_reverse (l : List Location) : sumD l.reverse = sumD l := by
  simp [sumD, List.map_reverse, List.sum_reverse]

theorem assignCaps_map_route : ∀ (ts : List Truck) (cs : List Nat),
    (assignCaps ts cs).map Truck.route = ts.map Truck.route
  | [], cs => by cases cs <;> simp [assignCaps]
  | t :: ts, [] => by simp [assignCaps]
  | t :: ts, c :: cs => by
    simp [assignCaps, assignCaps_map_route ts cs]

theorem locsOf_assignCaps (ts : List Truck) (cs : List Nat) :
    locsOf (assignCaps ts cs) = locsOf ts := by
  unfold locsOf
  rw [assignCaps_map_route]

theorem assignCaps_mem : ∀ (ts : List Truck) (cs : List Nat),
    (∀ t ∈ ts, t.load = sumD t.route ∧ t.excess = 0) →
    ∀ t ∈ assignCaps ts cs, t.load = sumD t.route ∧ t.excess ≤ (sumD t.route : Int)
  | [], cs, h => by cases cs <;> simp [assignCaps]
  | t :: ts, [], h => by
    intro t' ht'
    have h2 := h t' (by simpa [assignCaps] using ht')
    exact ⟨h2.1, by rw [h2.2]; positivity⟩
  | t :: ts, c :: cs, h => by
    intro t' ht'
    simp only [assignCaps, List.mem_cons] at ht'
    rcases ht' with rfl | ht'
    · have ht := h t (List.mem_cons_self t ts)
      constructor
      · simpa using ht.1
      · have h1 := ht.1
        simp only []
        rw [show ({ t with capacity := c, excess := (t.load : Int) - (c : Int) } : Truck).route
            = t.route from rfl, ← h1]
        omega
    · exact assignCaps_mem ts cs (fun u hu => h u (List.mem_cons_of_mem t hu)) t' ht'

theorem trucks_by_excess_spec (solution : Route) (pi : ProblemInstance) :
    (locsOf (trucks_by_excess solution pi)).Perm
        (solution.route.filter (fun loc => decide (pi.num_of_trucks - 1 ≤ loc.index)))
    ∧ (trucks_by_excess solution pi).length
        = (solution.route.filter
            (fun loc => decide (loc.index < pi.num_of_trucks - 1))).length + 1
    ∧ ∀ t ∈ trucks_by_excess solution pi,
        t.load = sumD t.route ∧ t.excess ≤ (sumD t.route : Int) := by
  unfold trucks_by_excess
  have hps := partition_trucks_spec solution pi.num_of_trucks
  have hperm := List.perm_insertionSort (fun a b : Truck => b.excess ≤ a.excess)
    (assignCaps (partition_trucks_sorted_by_load solution pi.num_of_trucks)
      pi.vehicle_capacities)
  refine ⟨?_, ?_, ?_⟩
  · apply (locsOf_perm hperm).trans
    rw [locsOf_assignCaps]
    exact hps.1
  · rw [List.length_insertionSort]
    have hlen : (assignCaps (partition_trucks_sorted_by_load solution pi.num_of_trucks)
        pi.vehicle_capacities).length
        = (partition_trucks_sorted_by_load solution pi.num_of_trucks).length := by
      have := congrArg List.length
        (assignCaps_map_route (partition_trucks_sorted_by_load solution pi.num_of_trucks)
          pi.vehicle_capacities)
      simpa using this
    rw [hlen, hps.2.1]
  · intro t ht
    exact assignCaps_mem _ _ hps.2.2 t (hperm.mem_iff.mp ht)

theorem destroyPopLoop_spec : ∀ (revRoute : List Location) (load : Nat) (excess : Int)
    (heap : List Location), excess ≤ (sumD revRoute : Int) →
    ∃ out, destroyPopLoop revRoute load excess heap = some out
      ∧ ((out.1 : Multiset Location) + (out.2.2.2 : Multiset Location))
          = (revRoute : Multiset Location) + (heap : Multiset Location)
  | [], load, excess, heap, h => by
    have h0 : ¬ 0 < excess := by
      simp [sumD] at h
      omega
    exact ⟨([], load, excess, heap), by simp [destroyPopLoop, h0], by simp⟩
  | d :: rest, load, excess, heap, h => by
    by_cases h0 : 0 < excess
    · have hle : excess - (d.demand : Int) ≤ (sumD rest : Int) := by
        rw [sumD_cons] at h
        push_cast at h ⊢
        omega
      obtain ⟨out, hout, hcons⟩ := destroyPopLoop_spec rest (load - d.demand)
        (excess - (d.demand : Int)) (d :: heap) hle
      refine ⟨out, by simp [destroyPopLoop, h0, hout], ?_⟩
      rw [hcons, ← Multiset.cons_coe, ← Multiset.cons_coe, ← Multiset.singleton_add,
        ← Multiset.singleton_add]
      abel
    · exact ⟨(d :: rest, load, excess, heap), by simp [destroyPopLoop, h0], by simp⟩

theorem destroyAll_spec : ∀ (ts : List Truck) (heap : List Location),
    (∀ t ∈ ts, t.excess ≤ (sumD t.route : Int)) →
    ∃ out, destroyAll ts heap = some out
      ∧ ((locsOf out.1 : Multiset Location) + (out.2 : Multiset Location))
          = (locsOf ts : Multiset Location) + (heap : Multiset Location)
      ∧ out.1.length = ts.length
  | [], heap, h => ⟨([], heap), by simp [destroyAll], rfl, rfl⟩
  | t :: ts, heap, h => by
    by_cases h0 : t.excess ≤ 0
    · exact ⟨(t :: ts, heap), by simp [destroyAll, h0], rfl, rfl⟩
    · obtain ⟨out1, hout1, hcons1⟩ := destroyPopLoop_spec t.route.reverse t.load t.excess heap
        (by rw [sumD_reverse]; exact h t (List.mem_cons_self t ts))
      obtain ⟨out2, hout2, hcons2, hlen2⟩ := destroyAll_spec ts out1.2.2.2
        (fun u hu => h u (List.mem_cons_of_mem t hu))
      refine ⟨({ t with route := out1.1.reverse, load := out1.2.1, excess := out1.2.2.1 } :: out2.1, out2.2), ?_, ?_, ?_⟩
      · simp [destroyAll, destroyTruck, hout1, hout2, h0]
      · rw [locsOf_cons, locsOf_cons, coe_append, coe_append]
        rw [show ({ t with route := out1.1.reverse, load := out1.2.1, excess := out1.2.2.1 } : Truck).route = out1.1.reverse from rfl]
        rw [coe_reverse]
        rw [coe_reverse] at hcons1
        rw [add_assoc, hcons2, add_left_comm, hcons1]
        abel
      · simpa using hlen2

theorem repairTruckRoute_conserve (excess : Int) : ∀ (heap route : List Location),
    ((repairTruckRoute excess route heap).1 : Multiset Location)
      + ((repairTruckRoute excess route heap).2 : Multiset Location)
      = (route : Multiset Location) + (heap : Multiset Location)
  | [], route => by simp [repairTruckRoute]
  | top :: rest, route => by
    simp only [repairTruckRoute]
    split
    · next hcond =>
      have ih := repairTruckRoute_conserve excess rest (route ++ [top])
      rw [ih, coe_append, Multiset.coe_singleton, ← Multiset.cons_coe,
        ← Multiset.singleton_add]
      abel
    · next hcond => simp

theorem repairForward_spec : ∀ (ts : List Truck) (heap : List Location),
    ((locsOf (repairForward ts heap).1 : Multiset Location)
        + ((repairForward ts heap).2 : Multiset Location)
      = (locsOf ts : Multiset Location) + (heap : Multiset Location))
    ∧ (repairForward ts heap).1.length = ts.length
  | [], heap => by simp [repairForward]
  | t :: ts, heap => by
    simp only [repairForward]
    split
    · next h => exact ⟨rfl, rfl⟩
    · next h =>
      have hr1 := repairTruckRoute_conserve t.excess heap t.route
      have ih := repairForward_spec ts (repairTruckRoute t.excess t.route heap).2
      dsimp only
      constructor
      · rw [locsOf_cons, locsOf_cons, coe_append, coe_append]
        rw [show ({ t with route := (repairTruckRoute t.excess t.route heap).1 } : Truck).route = (repairTruckRoute t.excess t.route heap).1 from rfl]
        rw [add_assoc, ih.1, add_left_comm, hr1]
        abel
      · simp [ih.2]

theorem locsOf_reverse (ts : List Truck) :
    (locsOf ts.reverse : Multiset Location) = ↑(locsOf ts) :=
  Multiset.coe_eq_coe.mpr (locsOf_perm (List.reverse_perm ts))

theorem repairAll_spec (trucks : List Truck) (heap : List Location) :
    ((locsOf (repairAll trucks heap).1 : Multiset Location)
        + ((repairAll trucks heap).2 : Multiset Location)
      = (locsOf trucks : Multiset Location) + (heap : Multiset Location))
    ∧ (repairAll trucks heap).1.length = trucks.length := by
  unfold repairAll
  have h := repairForward_spec trucks.reverse heap
  dsimp only
  constructor
  · rw [locsOf_reverse, h.1, locsOf_reverse]
  · rw [List.length_reverse, h.2, List.length_reverse]

theorem minExcessIdxAux_lt : ∀ (ts : List Truck) (i bestIdx : Nat) (bestVal : Int),
    bestIdx < i → minExcessIdxAux ts i bestIdx bestVal < i + ts.length
  | [], i, bestIdx, bestVal, h => by
    simpa [minExcessIdxAux] using h
  | t :: ts, i, bestIdx, bestVal, h => by
    simp only [minExcessIdxAux, List.length_cons]
    split
    · have h2 := minExcessIdxAux_lt ts (i + 1) i t.excess (by omega)
      omega
    · have h2 := minExcessIdxAux_lt ts (i + 1) bestIdx bestVal (by omega)
      omega

theorem minExcessIdx_lt (t : Truck) (ts : List Truck) :
    minExcessIdx (t :: ts) < (t :: ts).length := by
  have h := minExcessIdxAux_lt ts 1 0 t.excess (by omega)
  simp only [minExcessIdx, List.length_cons]
  omega

theorem locsOf_set : ∀ (ts : List Truck) (i : Nat) (t' : Truck), i < ts.length →
    (locsOf (ts.set i t') : Multiset Location) + ↑((ts.getD i emptyTruck).route)
      = ↑(locsOf ts) + ↑t'.route
  | [], i, t', h => by simp at h
  | t :: ts, 0, t', h => by
    simp only [List.set_cons_zero, List.getD_cons_zero, locsOf_cons, coe_append]
    abel
  | t :: ts, i + 1, t', h => by
    simp only [List.set_cons_succ, List.getD_cons_succ, locsOf_cons, coe_append]
    have ih := locsOf_set ts i t' (by simpa using h)
    rw [add_assoc, ih]
    abel

theorem fallbackInsert_spec (t : Truck) (ts : List Truck) (heap : List Location) :
    (locsOf (fallbackInsert (t :: ts) heap) : Multiset Location)
      = ↑(locsOf (t :: ts)) + ↑heap
    ∧ (fallbackInsert (t :: ts) heap).length = (t :: ts).length := by
  have hi := minExcessIdx_lt t ts
  have hset := locsOf_set (t :: ts) (minExcessIdx (t :: ts))
    { ((t :: ts).getD (minExcessIdx (t :: ts)) emptyTruck) with
        route := ((t :: ts).getD (minExcessIdx (t :: ts)) emptyTruck).route ++ heap } hi
  constructor
  · show (locsOf ((t :: ts).set (minExcessIdx (t :: ts)) _) : Multiset Location) = _
    apply add_right_cancel (b := (↑((t :: ts).getD (minExcessIdx (t :: ts)) emptyTruck).route
      : Multiset Location))
    rw [hset]
    rw [show ({ ((t :: ts).getD (minExcessIdx (t :: ts)) emptyTruck) with route := ((t :: ts).getD (minExcessIdx (t :: ts)) emptyTruck).route ++ heap } : Truck).route = ((t :: ts).getD (minExcessIdx (t :: ts)) emptyTruck).route ++ heap from rfl]
    rw [coe_append]
    abel
  · show ((t :: ts).set (minExcessIdx (t :: ts)) _).length = _
    rw [List.length_set]

theorem recreateLocs_index : ∀ (ts : List Truck) (k : Nat),
    (((recreateLocs ts k).map Location.index : List Nat) : Multiset Nat)
      = (((locsOf ts).map Location.index : List Nat) : Multiset Nat)
          + ↑(List.range' k (ts.length - 1))
  | [], k => by simp [recreateLocs, locsOf]
  | [t], k => by simp [recreateLocs, locsOf]
  | t :: t2 :: ts, k => by
    have ih := recreateLocs_index (t2 :: ts) (k + 1)
    show (((t.route ++ (⟨k, 0, true⟩ : Location) :: recreateLocs (t2 :: ts) (k + 1)).map
        Location.index : List Nat) : Multiset Nat) = _
    rw [List.map_append, List.map_cons, coe_append, ← Multiset.cons_coe,
      ← Multiset.singleton_add, ih]
    rw [locsOf_cons, List.map_append, coe_append]
    rw [show (t :: t2 :: ts).length - 1 = ((t2 :: ts).length - 1) + 1 from by simp]
    rw [List.range'_succ, ← Multiset.cons_coe, ← Multiset.singleton_add]
    rw [show (⟨k, 0, true⟩ : Location).index = k from rfl]
    simp only [locsOf_cons, List.map_append, coe_append]
    abel

theorem range_filter_lt (m : Nat) : ∀ (n : Nat),
    (List.range n).filter (fun x => decide (x < m)) = List.range (min m n)
  | 0 => by simp
  | n + 1 => by
    rw [List.range_succ, List.filter_append, range_filter_lt m n]
    by_cases h : n < m
    · rw [show List.filter (fun x => decide (x < m)) [n] = [n] from by simp [h]]
      rw [show min m n = n from by omega, show min m (n + 1) = n + 1 from by omega,
        List.range_succ]
    · rw [show List.filter (fun x => decide (x < m)) [n] = [] from by simp [h]]
      rw [show min m n = m from by omega, show min m (n + 1) = m from by omega,
        List.append_nil]

theorem recreate_spec (ts : List Truck) (solution : Route) (pi : ProblemInstance)
    (hK : 1 ≤ pi.num_of_trucks)
    (hperm : isPermOfRange solution.route solution.route.length)
    (hmk : depotMarkerCount solution.route pi.num_of_trucks = pi.num_of_trucks - 1)
    (hlocs : (locsOf ts : Multiset Location)
      = ↑(solution.route.filter (fun loc => decide (pi.num_of_trucks - 1 ≤ loc.index))))
    (hlen : ts.length = pi.num_of_trucks) :
    isPermOfRange (recreateLocs ts 0) solution.route.length
    ∧ depotMarkerCount (recreateLocs ts 0) pi.num_of_trucks = pi.num_of_trucks - 1 := by
  have hP : (solution.route.map Location.index).Perm (List.range solution.route.length) := hperm
  have hmk' : (solution.route.filter
      (fun loc => decide (loc.index < pi.num_of_trucks - 1))).length
      = pi.num_of_trucks - 1 := hmk
  -- the count of small indices in the input equals min (K-1) N
  have hcnt1 : List.countP (fun i => decide (i < pi.num_of_trucks - 1))
      (solution.route.map Location.index)
      = (solution.route.filter
          (fun loc => decide (loc.index < pi.num_of_trucks - 1))).length := by
    rw [List.countP_map, List.countP_eq_length_filter]
    congr 1
  have hcnt2 : List.countP (fun i => decide (i < pi.num_of_trucks - 1))
      (List.range solution.route.length) = min (pi.num_of_trucks - 1) solution.route.length := by
    rw [List.countP_eq_length_filter, range_filter_lt, List.length_range]
  have hKN : pi.num_of_trucks - 1 ≤ solution.route.length := by
    have := hP.countP_eq (fun i => decide (i < pi.num_of_trucks - 1))
    rw [hcnt1, hcnt2, hmk'] at this
    omega
  -- the marker indices of the input are exactly the range [0, K-1)
  have hFc : (List.map Location.index (solution.route.filter
        (fun loc => decide (loc.index < pi.num_of_trucks - 1))) : List Nat)
      = List.filter (fun i => decide (i < pi.num_of_trucks - 1))
          (solution.route.map Location.index) := by
    rw [List.filter_map]
    congr 1
  have hFcperm : ((List.map Location.index (solution.route.filter
        (fun loc => decide (loc.index < pi.num_of_trucks - 1))) : List Nat) : Multiset Nat)
      = ↑(List.range (pi.num_of_trucks - 1)) := by
    rw [hFc]
    rw [Multiset.coe_eq_coe]
    apply (hP.filter _).trans
    rw [range_filter_lt, show min (pi.num_of_trucks - 1) solution.route.length
      = pi.num_of_trucks - 1 from by omega]
  -- the filter split of the input
  have hsplit : ((solution.route.map Location.index : List Nat) : Multiset Nat)
      = ↑(List.map Location.index (solution.route.filter
          (fun loc => decide (pi.num_of_trucks - 1 ≤ loc.index))))
        + ↑(List.map Location.index (solution.route.filter
          (fun loc => decide (loc.index < pi.num_of_trucks - 1)))) := by
    have h1 := List.filter_append_perm
      (fun loc => decide (pi.num_of_trucks - 1 ≤ loc.index)) solution.route
    have h2 : List.filter (fun loc => !decide (pi.num_of_trucks - 1 ≤ loc.index)) solution.route
        = List.filter (fun loc => decide (loc.index < pi.num_of_trucks - 1)) solution.route :=
      List.filter_congr (fun x _ => by
        by_cases hx : pi.num_of_trucks - 1 ≤ x.index
        all_goals simp [hx]
        all_goals omega)
    rw [h2] at h1
    rw [← Multiset.coe_eq_coe.mpr (h1.map Location.index), List.map_append, coe_append]
  -- index multiset of the rebuilt route
  have h0 := recreateLocs_index ts 0
  rw [hlen] at h0
  have hMR : ((List.map Location.index (locsOf ts) : List Nat) : Multiset Nat)
      = ↑(List.map Location.index (solution.route.filter
          (fun loc => decide (pi.num_of_trucks - 1 ≤ loc.index)))) := by
    rw [← Multiset.map_coe, ← Multiset.map_coe, hlocs]
  have hfinal : ((List.map Location.index (recreateLocs ts 0) : List Nat) : Multiset Nat)
      = ↑(List.range solution.route.length) := by
    rw [h0, hMR, ← List.range_eq_range', hFcperm.symm, ← hsplit]
    exact Multiset.coe_eq_coe.mpr hP
  constructor
  · exact Multiset.coe_eq_coe.mp hfinal
  · have hcong := congrArg (Multiset.countP (fun i => i < pi.num_of_trucks - 1)) hfinal
    rw [Multiset.coe_countP, Multiset.coe_countP] at hcong
    have hlhs : List.countP (fun b => decide (b < pi.num_of_trucks - 1))
        (List.map Location.index (recreateLocs ts 0))
        = depotMarkerCount (recreateLocs ts 0) pi.num_of_trucks := by
      rw [List.countP_map]
      unfold depotMarkerCount
      rw [List.countP_eq_length_filter]
      congr 1
    have hrhs : List.countP (fun b => decide (b < pi.num_of_trucks - 1))
        (List.range solution.route.length) = pi.num_of_trucks - 1 := by
      rw [List.countP_eq_length_filter, range_filter_lt, List.length_range]
      omega
    rw [hlhs, hrhs] at hcong
    exact hcong

/-- C3: for a problem instance with K ≥ 1 trucks and an input route that is
a permutation of `[0, N)` containing exactly K−1 depot markers, the repair
operator `alns_destroy_and_recreate` succeeds (no panic) and returns a
route that is again a permutation of `[0, N)` with exactly K−1 depot
markers. -/
theorem alns_preserves_permutation (solution : Route) (pi : ProblemInstance)
    (hK : 1 ≤ pi.num_of_trucks)
    (hperm : isPermOfRange solution.route solution.route.length)
    (hmk : depotMarkerCount solution.route pi.num_of_trucks = pi.num_of_trucks - 1) :
    ∃ out : Route, alns_destroy_and_recreate solution pi = some out
      ∧ isPermOfRange out.route solution.route.length
      ∧ depotMarkerCount out.route pi.num_of_trucks = pi.num_of_trucks - 1 := by
  have hspec := trucks_by_excess_spec solution pi
  obtain ⟨out1, hout1, hcons1, hlen1⟩ := destroyAll_spec (trucks_by_excess solution pi) []
    (fun t ht => (hspec.2.2 t ht).2)
  set hs := List.insertionSort (fun a b : Location => a.demand ≤ b.demand) out1.2 with hhs
  set r2 := repairAll out1.1 hs with hr2d
  set T := if r2.2 = [] then r2.1 else fallbackInsert r2.1 r2.2 with hTd
  have hsort : ((hs : List Location) : Multiset Location) = ↑out1.2 := by
    rw [hhs]
    exact Multiset.coe_eq_coe.mpr (List.perm_insertionSort _ _)
  have hr2 := repairAll_spec out1.1 hs
  have hKlen : (trucks_by_excess solution pi).length = pi.num_of_trucks := by
    rw [hspec.2.1]
    have h := hmk
    unfold depotMarkerCount at h
    rw [h]
    omega
  have hC : (locsOf r2.1 : Multiset Location) + ↑r2.2
      = ↑(locsOf (trucks_by_excess solution pi)) := by
    rw [hr2d]
    rw [hr2.1, hsort, hcons1]
    simp
  have hlen2 : r2.1.length = pi.num_of_trucks := by
    rw [hr2d, hr2.2, hlen1, hKlen]
  have hT_locs : (locsOf T : Multiset Location)
      = ↑(locsOf (trucks_by_excess solution pi)) := by
    by_cases hE : r2.2 = []
    · rw [hTd, if_pos hE]
      rw [hE] at hC
      simpa using hC
    · rw [hTd, if_neg hE]
      have hne : r2.1 ≠ [] := by
        apply List.ne_nil_of_length_pos
        rw [hlen2]
        omega
      match hr1 : r2.1, hne with
      | t :: ts, _ =>
        have hf := fallbackInsert_spec t ts r2.2
        rw [hf.1, ← hr1, hC]
  have hT_len : T.length = pi.num_of_trucks := by
    by_cases hE : r2.2 = []
    · rw [hTd, if_pos hE]
      exact hlen2
    · rw [hTd, if_neg hE]
      have hne : r2.1 ≠ [] := by
        apply List.ne_nil_of_length_pos
        rw [hlen2]
        omega
      match hr1 : r2.1, hne with
      | t :: ts, _ =>
        have hf := fallbackInsert_spec t ts r2.2
        rw [hf.2, ← hr1, hlen2]
  have hrs := recreate_spec T solution pi hK hperm hmk
    (hT_locs.trans (Multiset.coe_eq_coe.mpr hspec.1)) hT_len
  refine ⟨recreate_route_from_trucks T pi, ?_, hrs.1, hrs.2⟩
  rw [hTd, hr2d, hhs]
  simp only [alns_destroy_and_recreate, hout1]



/-- C3 witness: a concrete instantiation of the repair invariant. -/
theorem alns_preserves_permutation_witness :
    ∃ out : Route, alns_destroy_and_recreate solR piR = some out
      ∧ isPermOfRange out.route solR.route.length
      ∧ depotMarkerCount out.route piR.num_of_trucks = piR.num_of_trucks - 1 :=
  alns_preserves_permutation solR piR (by decide)
    (by unfold isPermOfRange; decide) (by decide)

/-- C10: every truck produced by `trucks_by_excess` has `load` equal to the
sum of the demands on its route and `excess` at most that sum, so a truck
with positive excess has a non-empty route; consequently the destroy loop
of `alns_destroy_and_recreate` never pops from an empty route — the
`expect` panic branch is unreachable and `destroyAll` returns `some`. -/
theorem trucks_by_excess_destroy_safe (solution : Route) (pi : ProblemInstance) :
    (∀ t ∈ trucks_by_excess solution pi,
      t.load = sumD t.route ∧ (0 < t.excess → t.route ≠ []))
    ∧ (destroyAll (trucks_by_excess solution pi) []).isSome := by
  have hspec := trucks_by_excess_spec solution pi
  constructor
  · intro t ht
    refine ⟨(hspec.2.2 t ht).1, ?_⟩
    intro hpos hroute
    have hle := (hspec.2.2 t ht).2
    rw [hroute] at hle
    simp [sumD] at hle
    omega
  · obtain ⟨out, hout, -, -⟩ := destroyAll_spec (trucks_by_excess solution pi) []
      (fun t ht => (hspec.2.2 t ht).2)
    rw [hout]
    rfl

/-- C10 witness: a concrete instantiation of the destroy-safety property. -/
theorem trucks_by_excess_destroy_safe_witness :
    (∀ t ∈ trucks_by_excess solW piW,
      t.load = sumD t.route ∧ (0 < t.excess → t.route ≠ []))
    ∧ (destroyAll (trucks_by_excess solW piW) []).isSome :=
  trucks_by_excess_destroy_safe solW piW

/-- C8: the derived `PartialEq` of `Location` compares all three fields,
so two locations are equal iff index, demand and warehouse flag all
coincide — equal indices alone do not suffice. -/
theorem location_eq_iff_all_fields (a b : Location) :
    a = b ↔ a.index = b.index ∧ a.demand = b.demand ∧ a.is_warehouse = b.is_warehouse := by
  constructor
  · rintro rfl
    exact ⟨rfl, rfl, rfl⟩
  · rintro ⟨h1, h2, h3⟩
    cases a
    cases b
    simp_all

/-- C8 counterexample: two locations with equal index but different demand
are not equal, refuting that equality is determined by the index alone. -/
theorem location_eq_not_by_index_alone :
    (⟨1, 2, false⟩ : Location).index = (⟨1, 3, false⟩ : Location).index
      ∧ (⟨1, 2, false⟩ : Location) ≠ (⟨1, 3, false⟩ : Location) := by
  exact ⟨rfl, by decide⟩

/-- C1: at the concrete pair a = (index 1, demand 5), b = (index 2, demand 3)
the claimed equivalence `cmp a b = gt ↔ a.demand > b.demand` fails: a has the
strictly larger demand, yet a compares `lt` (and b compares `gt`), because the
implementation reverses the comparison.  A Rust `BinaryHeap` therefore pops
the location of minimal demand first, not the one of maximal demand. -/
theorem location_cmp_reversed_at_input :
    Location.cmp ⟨1, 5, false⟩ ⟨2, 3, false⟩ = Ordering.lt
      ∧ Location.cmp ⟨2, 3, false⟩ ⟨1, 5, false⟩ = Ordering.gt
      ∧ (3 : Nat) < 5 := by
  decide

theorem trimFront_length_le : ∀ (l : List (Nat × Nat)) (m : Nat), (trimFront l m).length ≤ m
  | [], m => by simp [trimFront]
  | p :: rest, m => by
    rw [trimFront]
    split
    · exact trimFront_length_le rest m
    · next h =>
      simp only [List.length_cons] at h ⊢
      omega

theorem trimFront_subset : ∀ (l : List (Nat × Nat)) (m : Nat), ∀ x ∈ trimFront l m, x ∈ l
  | [], m => by simp [trimFront]
  | p :: rest, m => by
    rw [trimFront]
    split
    · intro x hx
      exact List.mem_cons_of_mem p (trimFront_subset rest m x hx)
    · intro x hx
      exact hx

/-- C7 counterexample: inserting the sentinel swap `(0, 0)` (which the
selector returns when the candidate list is empty) stores the pair `(0, 0)`,
which is not strictly increasing, refuting the claim as stated for every
tabu list and every swap pair. -/
theorem insert_tabu_pair_not_strict :
    ¬ (∀ p ∈ insert_and_adjust_tabu_list [] (0, 0) 5, p.1 < p.2) := by
  decide

/-- C7 (amended): provided every pair already stored is strictly increasing
and the inserted swap has two distinct indices, after
`insert_and_adjust_tabu_list` the list length is at most `len_tabu_list` and
every stored pair `(a, b)` satisfies `a < b`. -/
theorem insert_and_adjust_tabu_list_invariant (tabu_list : List (Nat × Nat))
    (swap_move : Nat × Nat) (len_tabu_list : Nat)
    (hnorm : ∀ p ∈ tabu_list, p.1 < p.2) (hne : swap_move.1 ≠ swap_move.2) :
    (insert_and_adjust_tabu_list tabu_list swap_move len_tabu_list).length ≤ len_tabu_list
    ∧ ∀ p ∈ insert_and_adjust_tabu_list tabu_list swap_move len_tabu_list, p.1 < p.2 := by
  unfold insert_and_adjust_tabu_list
  constructor
  · simpa using trimFront_length_le _ len_tabu_list
  · intro p hp
    rw [List.mem_reverse] at hp
    have hp2 := trimFront_subset _ len_tabu_list p hp
    rw [List.mem_reverse, List.mem_cons] at hp2
    rcases hp2 with hp2 | hp2
    · subst hp2
      by_cases hlt : swap_move.1 < swap_move.2
      · simp [hlt]
      · have : swap_move.2 < swap_move.1 := by omega
        simpa [hlt] using this
    · exact hnorm p hp2

/-- C7 witness: a concrete instantiation of the amended invariant. -/
theorem insert_and_adjust_tabu_list_invariant_witness :
    (insert_and_adjust_tabu_list [(1, 2)] (4, 3) 3).length ≤ 3
    ∧ ∀ p ∈ insert_and_adjust_tabu_list [(1, 2)] (4, 3) 3, p.1 < p.2 :=
  insert_and_adjust_tabu_list_invariant [(1, 2)] (4, 3) 3 (by decide) (by decide)

theorem totalOverweight_eq_zero_iff : ∀ (loads caps : List Nat),
    totalOverweight loads caps = 0 ↔
      ∀ r < min loads.length caps.length, loads.getD r 0 ≤ caps.getD r 0
  | [], caps => by simp [totalOverweight]
  | l :: ls, [] => by simp [totalOverweight]
  | l :: ls, c :: cs => by
    have ih := totalOverweight_eq_zero_iff ls cs
    have hhead : (0 : Int) ≤ max 0 ((l : Int) - (c : Int)) := le_max_left 0 _
    have htail : (0 : Int) ≤ totalOverweight ls cs := by
      unfold totalOverweight
      apply List.sum_nonneg
      intro x hx
      rcases List.mem_map.mp hx with ⟨lc, _, rfl⟩
      exact le_max_left 0 _
    constructor
    · intro h r hr
      have hsum : max 0 ((l : Int) - (c : Int)) + totalOverweight ls cs = 0 := by
        simpa [totalOverweight, List.zip_cons_cons] using h
      have h1 : max 0 ((l : Int) - (c : Int)) = 0 := by omega
      have h2 : totalOverweight ls cs = 0 := by omega
      match r with
      | 0 =>
        simp only [List.getD_cons_zero]
        omega
      | r + 1 =>
        simp only [List.getD_cons_succ]
        exact (ih.mp h2) r (by simpa using hr)
    · intro h
      have h0 : (l : Int) ≤ (c : Int) := by
        have := h 0 (by simp)
        simpa using this
      have hrest : totalOverweight ls cs = 0 := by
        apply ih.mpr
        intro r hr
        have := h (r + 1) (by simpa using hr)
        simpa using this
      have : max 0 ((l : Int) - (c : Int)) = 0 := by omega
      simp [totalOverweight, List.zip_cons_cons, this]
      simpa [totalOverweight] using hrest


/-- C5 counterexample: with penalty factor P = 0 the returned penalty is 0
even though the single segment load 10 exceeds the capacity 5 at rank 0, so
the stated equivalence fails at P = 0. -/
theorem penalty_zero_iff_fails_at_zero_factor :
    ¬ (penalty ⟨[⟨1, 10, false⟩], 0⟩ 0 2 [5] = 0
        ↔ specLoadsWithinCaps ⟨[⟨1, 10, false⟩], 0⟩ 2 [5]) := by
  intro h
  have h0 : penalty ⟨[⟨1, 10, false⟩], 0⟩ 0 2 [5] = 0 := by
    simp [penalty]
  have := h.mp h0
  have h10 : (find_sorted_capacities ⟨[⟨1, 10, false⟩], 0⟩ 2) = [10] := by decide
  have := this 0 (by rw [h10]; simp)
  rw [h10] at this
  simp at this

/-- C5 (amended): for every solution and a positive penalty factor P, the
penalty is zero iff after sorting segment loads descending every rank below
min(#segments, #capacities) satisfies load ≤ capacity. -/
theorem penalty_eq_zero_iff (solution : Route) (penalty_value num_of_trucks : Nat)
    (vehicle_cap : List Nat) (hP : 1 ≤ penalty_value) :
    penalty solution penalty_value num_of_trucks vehicle_cap = 0
      ↔ specLoadsWithinCaps solution num_of_trucks vehicle_cap := by
  unfold penalty specLoadsWithinCaps
  rw [mul_eq_zero]
  constructor
  · intro h
    rcases h with h | h
    · rw [Int.cast_eq_zero] at h
      exact (totalOverweight_eq_zero_iff _ _).mp h
    · rw [Nat.cast_eq_zero] at h
      omega
  · intro h
    left
    rw [Int.cast_eq_zero]
    exact (totalOverweight_eq_zero_iff _ _).mpr h

/-- C5 witness: a concrete instantiation of the amended equivalence. -/
theorem penalty_eq_zero_iff_witness :
    penalty ⟨[⟨1, 4, false⟩], 0⟩ 3 2 [5] = 0
      ↔ specLoadsWithinCaps ⟨[⟨1, 4, false⟩], 0⟩ 2 [5] :=
  penalty_eq_zero_iff ⟨[⟨1, 4, false⟩], 0⟩ 3 2 [5] (by decide)

/-- C6: if the candidate list is non-empty and sorted ascending by fitness,
the best candidate's normalised pair is in the tabu list, its fitness lies
in the closed aspiration window around the best-so-far fitness, and its pair
shares no index with the parent swap, then `choose_best_candidate` returns
the best candidate. -/
theorem choose_best_candidate_aspiration (c : ℚ × (Nat × Nat))
    (rest : List (ℚ × (Nat × Nat))) (tabu_list : List (Nat × Nat)) (best_so_far : Route)
    (aspiration_threshold : ℚ) (parent_swap : Nat × Nat)
    (hsorted : (c :: rest).Sorted (fun a b => a.1 ≤ b.1))
    (htabu : tabu_list.contains (normalisePair c.2) = true)
    (hlo : best_so_far.fitness - aspiration_threshold ≤ c.1)
    (hhi : c.1 ≤ best_so_far.fitness + aspiration_threshold)
    (hov : swaps_overlap c.2 parent_swap = false) :
    choose_best_candidate (c :: rest) tabu_list best_so_far aspiration_threshold
      parent_swap = c := by
  simp [choose_best_candidate, htabu, hlo, hhi, hov]

/-- C6 witness: a concrete instantiation of the aspiration property. -/
theorem choose_best_candidate_aspiration_witness :
    choose_best_candidate [((5 : ℚ), (1, 2))] [(1, 2)] ⟨[], 5⟩ 1 (3, 4) = (5, (1, 2)) :=
  choose_best_candidate_aspiration (5, (1, 2)) [] [(1, 2)] ⟨[], 5⟩ 1 (3, 4)
    (by simp) (by decide) (by norm_num) (by norm_num) (by decide)

/-- C2: evaluation of the iteration tail at a concrete input where the
mutation gate fires: the solution carried into the next iteration is the
unmutated `next_solution` (the mutation was applied to `current_solution`,
which line 261 immediately overwrites), even though `final_mutation` would
have changed `next_solution`. -/
theorem mutation_gate_discards_mutation :
    (searchIterTail ⟨[locA, locB], 0⟩ ⟨[locB, locA], 0⟩ true 0 1 0 0 0 0).1
        = ⟨[locB, locA], 0⟩
      ∧ final_mutation ⟨[locB, locA], 0⟩ 0 1 0 0 0 ≠ ⟨[locB, locA], 0⟩ := by
  decide

end VRP
